import Mathlib

/-!
# WhatsAppFlow: verification of the spec against the source

Shallow embedding of the parts of the WhatsAppFlow repository that the
claims concern:

* `ChatbotService` (src/services/chatbotService.js): the per-sender message
  queue / worker dispatcher (`queueMessage`, `_processQueue`,
  `_handleSingleMessage`) and the per-sender rate limiter
  (`isRateLimited`, `updateRateLimit`).
* `GeminiClient` (src/gemini/geminiClient.js): credential scoring and
  selection (`getBestClient`), the retry loop (`generateContent`),
  `isRetryableError` and the per-slot counters.
* `JsonDatabase` (src/database/jsonDb.js): `addMessage` history trimming and
  `performCleanup` retention.

JavaScript runs each async function to completion between `await` points, so
the dispatcher is modelled as a transition system whose atomic steps are the
run-to-completion segments between awaits.
-/

namespace WhatsAppFlow

/-! ## Dispatcher model (ChatbotService.queueMessage / _processQueue)

`_handleSingleMessage` catches every error of the main processing path and
then sends an apology reply (`whatsappClient.sendMessage`).  That send itself
throws when the channel is disconnected or keeps failing; such an error
escapes `_handleSingleMessage`, reaches `_processQueue`'s catch and ends the
worker loop.  An event's `Outcome` records which of the three cases the
handling of that event takes. -/

inductive Outcome where
  /-- `_handleSingleMessage` returns normally. -/
  | ok : Outcome
  /-- the main path throws, the handler's catch logs it and the apology
      reply succeeds, so `_handleSingleMessage` still returns normally. -/
  | caughtError : Outcome
  /-- the main path throws and sending the apology reply throws as well, so
      the error escapes `_handleSingleMessage` into `_processQueue`. -/
  | errorReplyThrows : Outcome
  deriving DecidableEq, Repr

structure Event where
  eid : Nat
  outcome : Outcome
  deriving DecidableEq, Repr

/-- The dispatcher state of `ChatbotService`, per sender:
`pending s` is the entry of `this.messageQueue` (`none` = key absent),
`processing s` is membership in `this.processingMessages`,
`workers s` lists the in-flight `_processQueue` invocations for `s`, each
represented by the event its awaited `_handleSingleMessage` call is handling,
`handled s` logs events whose `_handleSingleMessage` call has finished, and
`dropped s` logs events deleted from the queue by a worker's `finally`. -/
structure DState where
  pending : String → Option (List Event)
  processing : String → Bool
  workers : String → List Event
  handled : String → List Event
  dropped : String → List Event

def initState : DState where
  pending := fun _ => none
  processing := fun _ => false
  workers := fun _ => []
  handled := fun _ => []
  dropped := fun _ => []

/-- `ChatbotService.queueMessage(messageInfo)` together with the synchronous
prefix of the `_processQueue` call it may start: push the event; if no worker
is marked for the sender, mark one and let it synchronously shift the queue
head and start awaiting `_handleSingleMessage` on it.  All of this happens
before the first `await`, hence in one atomic step. -/
def queueMessage (st : DState) (s : String) (e : Event) : DState :=
  let q := (st.pending s).getD [] ++ [e]
  let st1 : DState := { st with pending := Function.update st.pending s (some q) }
  if st.processing s then st1
  else
    match q with
    | [] => st1
    | h :: t =>
      { st1 with
          processing := Function.update st1.processing s true
          pending := Function.update st1.pending s (some t)
          workers := Function.update st1.workers s (st1.workers s ++ [h]) }

/-- The awaited `_handleSingleMessage` of the head worker for `s` resolves;
the worker resumes and runs to its next suspension (or to termination).
`none` when no worker is active for `s`.

* On `ok`/`caughtError` the handler returned normally; the `while` loop
  re-checks `messageQueue.get(sender)?.length > 0`: nonempty queue shifts the
  next event and awaits its handling, otherwise the loop exits and `finally`
  deletes the processing marker and the queue entry.
* On `errorReplyThrows` the error reaches `_processQueue`'s catch; the loop
  is abandoned and `finally` deletes the marker and the queue entry,
  discarding whatever it still held. -/
def finishHandle (st : DState) (s : String) : Option DState :=
  match st.workers s with
  | [] => none
  | e :: ws =>
    let st1 : DState := { st with handled := Function.update st.handled s (st.handled s ++ [e]) }
    match e.outcome with
    | Outcome.errorReplyThrows =>
      some { st1 with
        processing := Function.update st1.processing s false
        pending := Function.update st1.pending s none
        workers := Function.update st1.workers s ws
        dropped := Function.update st1.dropped s (st1.dropped s ++ (st1.pending s).getD []) }
    | _ =>
      match st1.pending s with
      | some (h :: t) =>
        some { st1 with
          pending := Function.update st1.pending s (some t)
          workers := Function.update st1.workers s (h :: ws) }
      | _ =>
        some { st1 with
          processing := Function.update st1.processing s false
          pending := Function.update st1.pending s none
          workers := Function.update st1.workers s ws }

/-- An atomic step of the dispatcher: either an inbound event is submitted
(`queueMessage` runs to its first suspension), or an awaited
`_handleSingleMessage` resolves and the worker runs to its next
suspension. -/
inductive Act where
  | submit (s : String) (e : Event) : Act
  | finish (s : String) : Act
  deriving DecidableEq, Repr

def step (a : Act) (st : DState) : Option DState :=
  match a with
  | Act.submit s e => some (queueMessage st s e)
  | Act.finish s => finishHandle st s

def run (acts : List Act) (st : DState) : Option DState :=
  match acts with
  | [] => some st
  | a :: rest =>
    match step a st with
    | none => none
    | some st' => run rest st'

inductive Reachable : DState → Prop where
  | init : Reachable initState
  | next {st st' : DState} {a : Act} :
      Reachable st → step a st = some st' → Reachable st'

/-- The single-worker invariant of the dispatcher: per sender, at most one
worker, the `processingMessages` marker holds exactly when a worker is
active, and a nonempty pending queue always has an active worker draining
it. -/
def dispatchInv (st : DState) : Prop :=
  ∀ s : String,
    (st.workers s).length ≤ 1 ∧
    (st.processing s = true ↔ (st.workers s).length = 1) ∧
    ((st.pending s).getD [] ≠ [] → st.processing s = true)

theorem initState_inv : dispatchInv initState := by
  intro s
  refine ⟨by simp [initState], by simp [initState], by simp [initState]⟩

theorem queueMessage_inv (st : DState) (hinv : dispatchInv st) (s : String) (e : Event) :
    dispatchInv (queueMessage st s e) := by
  intro x
  by_cases hp : st.processing s
  · simp only [queueMessage, hp, if_true]
    by_cases hx : x = s
    · subst hx
      obtain ⟨h1, h2, _⟩ := hinv x
      refine ⟨h1, h2, fun _ => hp⟩
    · obtain ⟨h1, h2, h3⟩ := hinv x
      simpa [Function.update_noteq hx] using ⟨h1, h2, h3⟩
  · have hworkers : st.workers s = [] := by
      obtain ⟨h1, h2, _⟩ := hinv s
      cases hws : st.workers s with
      | nil => rfl
      | cons a l =>
        exfalso
        have hlen : (st.workers s).length = 1 := by
          rw [hws] at h1 ⊢
          simp only [List.length_cons] at h1 ⊢
          omega
        exact hp (h2.mpr hlen)
    have hpend : (st.pending s).getD [] = [] := by
      by_contra hne
      exact hp ((hinv s).2.2 hne)
    simp only [queueMessage, hp, if_false, hpend, List.nil_append]
    by_cases hx : x = s
    · subst hx
      refine ⟨?_, ?_, ?_⟩
      · simp [Function.update_same, hworkers]
      · simp [Function.update_same, hworkers]
      · intro _
        simp [Function.update_same]
    · obtain ⟨h1, h2, h3⟩ := hinv x
      simpa [Function.update_noteq hx] using ⟨h1, h2, h3⟩

theorem finishHandle_inv {st st' : DState} (hinv : dispatchInv st) {s : String}
    (hf : finishHandle st s = some st') : dispatchInv st' := by
  cases hw : st.workers s with
  | nil => simp [finishHandle, hw] at hf
  | cons e ws =>
    have hws : ws = [] := by
      have h1 := (hinv s).1
      rw [hw] at h1
      simpa using h1
    subst hws
    have hproc : st.processing s = true := by
      refine (hinv s).2.1.mpr ?_
      rw [hw]
      rfl
    simp only [finishHandle, hw] at hf
    cases ho : e.outcome with
    | errorReplyThrows =>
      simp only [ho, Option.some.injEq] at hf
      subst hf
      intro x
      by_cases hx : x = s
      · subst hx
        refine ⟨by simp [Function.update_same], by simp [Function.update_same],
          by simp [Function.update_same]⟩
      · obtain ⟨h1, h2, h3⟩ := hinv x
        simpa [Function.update_noteq hx] using ⟨h1, h2, h3⟩
    | ok =>
      simp only [ho] at hf
      cases hpend : st.pending s with
      | none =>
        simp only [hpend, Option.some.injEq] at hf
        subst hf
        intro x
        by_cases hx : x = s
        · subst hx
          refine ⟨by simp [Function.update_same], by simp [Function.update_same],
            by simp [Function.update_same]⟩
        · obtain ⟨h1, h2, h3⟩ := hinv x
          simpa [Function.update_noteq hx] using ⟨h1, h2, h3⟩
      | some q =>
        cases q with
        | nil =>
          simp only [hpend, Option.some.injEq] at hf
          subst hf
          intro x
          by_cases hx : x = s
          · subst hx
            refine ⟨by simp [Function.update_same], by simp [Function.update_same],
              by simp [Function.update_same]⟩
          · obtain ⟨h1, h2, h3⟩ := hinv x
            simpa [Function.update_noteq hx] using ⟨h1, h2, h3⟩
        | cons h t =>
          simp only [hpend, Option.some.injEq] at hf
          subst hf
          intro x
          by_cases hx : x = s
          · subst hx
            refine ⟨by simp [Function.update_same], ?_, fun _ => hproc⟩
            simp [Function.update_same, hproc]
          · obtain ⟨h1, h2, h3⟩ := hinv x
            simpa [Function.update_noteq hx] using ⟨h1, h2, h3⟩
    | caughtError =>
      simp only [ho] at hf
      cases hpend : st.pending s with
      | none =>
        simp only [hpend, Option.some.injEq] at hf
        subst hf
        intro x
        by_cases hx : x = s
        · subst hx
          refine ⟨by simp [Function.update_same], by simp [Function.update_same],
            by simp [Function.update_same]⟩
        · obtain ⟨h1, h2, h3⟩ := hinv x
          simpa [Function.update_noteq hx] using ⟨h1, h2, h3⟩
      | some q =>
        cases q with
        | nil =>
          simp only [hpend, Option.some.injEq] at hf
          subst hf
          intro x
          by_cases hx : x = s
          · subst hx
            refine ⟨by simp [Function.update_same], by simp [Function.update_same],
              by simp [Function.update_same]⟩
          · obtain ⟨h1, h2, h3⟩ := hinv x
            simpa [Function.update_noteq hx] using ⟨h1, h2, h3⟩
        | cons h t =>
          simp only [hpend, Option.some.injEq] at hf
          subst hf
          intro x
          by_cases hx : x = s
          · subst hx
            refine ⟨by simp [Function.update_same], ?_, fun _ => hproc⟩
            simp [Function.update_same, hproc]
          · obtain ⟨h1, h2, h3⟩ := hinv x
            simpa [Function.update_noteq hx] using ⟨h1, h2, h3⟩

theorem reachable_inv {st : DState} (h : Reachable st) : dispatchInv st := by
  induction h with
  | init => exact initState_inv
  | next hr hs ih =>
    rename_i st st' a
    cases a with
    | submit s e =>
      simp only [step, Option.some.injEq] at hs
      subst hs
      exact queueMessage_inv st ih s e
    | finish s =>
      exact finishHandle_inv ih hs

/-- C1: for every sender, at most one worker is ever active at a time; in
every reachable dispatcher state the single-worker invariant holds (at most
one worker per sender, the `processingMessages` marker tracks it exactly, and
a nonempty pending queue always has an active worker, so a late arrival is
never stranded); `queueMessage` appends the event to the sender's queue and
starts a new worker if and only if no worker is currently active for that
sender, after which exactly one worker is active (never zero, never two). -/
theorem c1_exactly_one_worker_per_sender (st : DState) (hr : Reachable st) :
    dispatchInv st ∧
    ∀ (s : String) (e : Event),
      (st.processing s = true →
        (queueMessage st s e).workers s = st.workers s ∧
        (queueMessage st s e).pending s = some ((st.pending s).getD [] ++ [e])) ∧
      (st.processing s = false →
        (queueMessage st s e).workers s = [e] ∧
        (queueMessage st s e).pending s = some [] ∧
        (queueMessage st s e).processing s = true) ∧
      ((queueMessage st s e).workers s).length = 1 ∧
      (queueMessage st s e).processing s = true := by
  have hinv := reachable_inv hr
  refine ⟨hinv, fun s e => ?_⟩
  by_cases hp : st.processing s = true
  · have hlen : (st.workers s).length = 1 := (hinv s).2.1.mp hp
    have hworkers : (queueMessage st s e).workers s = st.workers s := by
      simp [queueMessage, hp, Function.update_same]
    have hproc : (queueMessage st s e).processing s = true := by
      simp [queueMessage, hp, Function.update_same]
    refine ⟨fun _ => ⟨hworkers, ?_⟩,
      fun hfalse => by rw [hp] at hfalse; exact absurd hfalse (by simp), ?_, hproc⟩
    · simp [queueMessage, hp, Function.update_same]
    · rw [hworkers]; exact hlen
  · have hp' : st.processing s = false := by
      cases h : st.processing s
      · rfl
      · exact absurd h hp
    have hworkers : st.workers s = [] := by
      obtain ⟨h1, h2, _⟩ := hinv s
      cases hws : st.workers s with
      | nil => rfl
      | cons a l =>
        exfalso
        have hlen : (st.workers s).length = 1 := by
          rw [hws] at h1 ⊢
          simp only [List.length_cons] at h1 ⊢
          omega
        exact hp (h2.mpr hlen)
    have hpend : (st.pending s).getD [] = [] := by
      by_contra hne
      exact hp ((hinv s).2.2 hne)
    have hw' : (queueMessage st s e).workers s = [e] := by
      have := hworkers
      simp [queueMessage, hp', hpend, Function.update_same, this]
    refine ⟨fun htrue => absurd htrue hp, fun _ => ⟨hw', ?_, ?_⟩, ?_, ?_⟩
    · simp [queueMessage, hp', hpend, Function.update_same]
    · simp [queueMessage, hp', hpend, Function.update_same]
    · rw [hw']; rfl
    · simp [queueMessage, hp', hpend, Function.update_same]

theorem c1_exactly_one_worker_per_sender_witness :
    dispatchInv initState ∧
    ((queueMessage initState "alice" ⟨0, Outcome.ok⟩).workers "alice").length = 1 ∧
    (queueMessage initState "alice" ⟨0, Outcome.ok⟩).processing "alice" = true := by
  have h := c1_exactly_one_worker_per_sender initState Reachable.init
  exact ⟨h.1, (h.2 "alice" ⟨0, Outcome.ok⟩).2.2.1, (h.2 "alice" ⟨0, Outcome.ok⟩).2.2.2⟩

/-- C2 counterexample: sender "a" has two queued events; handling the first
raises an error whose apology reply also throws, so the error reaches
`_processQueue`'s catch and its `finally` deletes the queue: the remaining
event `⟨2, Outcome.ok⟩` is discarded, refuting "no remaining event is
discarded". -/
theorem c2_error_drains_queue_counterexample :
    (run [Act.submit "a" ⟨1, Outcome.errorReplyThrows⟩, Act.submit "a" ⟨2, Outcome.ok⟩,
          Act.finish "a"] initState).map
        (fun st => (st.handled "a", st.dropped "a", st.processing "a"))
      = some ([⟨1, Outcome.errorReplyThrows⟩], [⟨2, Outcome.ok⟩], false) := by
  decide

/-- C2 amended: an error raised during the primary handling of one event is
caught inside `_handleSingleMessage` (logged, apology sent) and the worker
continues to dequeue and process all remaining events of that sender; but if
the apology reply itself throws, the worker's outer catch terminates the loop
and the sender's remaining queued events are discarded.  In either case no
other sender's queue, worker or logs are affected. -/
theorem c2_error_handling_amended (st : DState) (s : String) (e : Event)
    (hw : st.workers s = [e]) :
    (e.outcome ≠ Outcome.errorReplyThrows →
      (finishHandle st s).map (fun st' =>
        (st'.dropped s, st'.handled s, st'.workers s ++ (st'.pending s).getD []))
        = some (st.dropped s, st.handled s ++ [e], (st.pending s).getD [])) ∧
    (e.outcome = Outcome.errorReplyThrows →
      (finishHandle st s).map (fun st' =>
        (st'.dropped s, st'.handled s, st'.workers s, st'.pending s, st'.processing s))
        = some (st.dropped s ++ (st.pending s).getD [], st.handled s ++ [e],
            [], none, false)) ∧
    (∀ st', finishHandle st s = some st' → ∀ t, t ≠ s →
      st'.pending t = st.pending t ∧ st'.processing t = st.processing t ∧
      st'.workers t = st.workers t ∧ st'.handled t = st.handled t ∧
      st'.dropped t = st.dropped t) := by
  refine ⟨?_, ?_, ?_⟩
  · intro hne
    cases ho : e.outcome with
    | errorReplyThrows => exact absurd ho hne
    | ok =>
      cases hpend : st.pending s with
      | none => simp [finishHandle, hw, ho, hpend, Function.update_same]
      | some q =>
        cases q with
        | nil => simp [finishHandle, hw, ho, hpend, Function.update_same]
        | cons h t => simp [finishHandle, hw, ho, hpend, Function.update_same]
    | caughtError =>
      cases hpend : st.pending s with
      | none => simp [finishHandle, hw, ho, hpend, Function.update_same]
      | some q =>
        cases q with
        | nil => simp [finishHandle, hw, ho, hpend, Function.update_same]
        | cons h t => simp [finishHandle, hw, ho, hpend, Function.update_same]
  · intro ho
    simp [finishHandle, hw, ho, Function.update_same]
  · intro st' hf t ht
    simp only [finishHandle, hw] at hf
    cases ho : e.outcome with
      | errorReplyThrows =>
        simp only [ho, Option.some.injEq] at hf
        subst hf
        refine ⟨?_, ?_, ?_, ?_, ?_⟩ <;> simp [Function.update_noteq ht]
      | ok =>
        simp only [ho] at hf
        cases hpend : st.pending s with
        | none =>
          simp only [hpend, Option.some.injEq] at hf
          subst hf
          refine ⟨?_, ?_, ?_, ?_, ?_⟩ <;> simp [Function.update_noteq ht]
        | some q =>
          cases q with
          | nil =>
            simp only [hpend, Option.some.injEq] at hf
            subst hf
            refine ⟨?_, ?_, ?_, ?_, ?_⟩ <;> simp [Function.update_noteq ht]
          | cons h t' =>
            simp only [hpend, Option.some.injEq] at hf
            subst hf
            refine ⟨?_, ?_, ?_, ?_, ?_⟩ <;> simp [Function.update_noteq ht]
      | caughtError =>
        simp only [ho] at hf
        cases hpend : st.pending s with
        | none =>
          simp only [hpend, Option.some.injEq] at hf
          subst hf
          refine ⟨?_, ?_, ?_, ?_, ?_⟩ <;> simp [Function.update_noteq ht]
        | some q =>
          cases q with
          | nil =>
            simp only [hpend, Option.some.injEq] at hf
            subst hf
            refine ⟨?_, ?_, ?_, ?_, ?_⟩ <;> simp [Function.update_noteq ht]
          | cons h t' =>
            simp only [hpend, Option.some.injEq] at hf
            subst hf
            refine ⟨?_, ?_, ?_, ?_, ?_⟩ <;> simp [Function.update_noteq ht]

theorem c2_error_handling_amended_witness :
    ((finishHandle (queueMessage initState "w" ⟨1, Outcome.caughtError⟩) "w").map
      (fun st' => (st'.dropped "w", st'.handled "w",
        st'.workers "w" ++ (st'.pending "w").getD [])))
      = some ([], [⟨1, Outcome.caughtError⟩], []) := by
  have h := (c2_error_handling_amended (queueMessage initState "w" ⟨1, Outcome.caughtError⟩)
    "w" ⟨1, Outcome.caughtError⟩ (by decide)).1 (by decide)
  rw [h]
  decide

/-! ## Rate limiter (ChatbotService.isRateLimited / updateRateLimit)

Times are milliseconds (`Date.now()`), modelled as integers.  A sender's
entry in `this.rateLimiter` is `none` when the key is absent.  JS detail kept
by the model: when the key is absent, `isRateLimited` builds a fresh
`{count: 0, resetTime: now}` object, checks it and then discards it (it never
calls `set`), so the map is unchanged; when the key is present, the lazy
reset mutates the stored object in place, so it persists. -/

structure RateLimitEntry where
  count : Nat
  resetTime : Int
  deriving DecidableEq, Repr

/-- `ChatbotService.isRateLimited(userId)`: returns the verdict and the
state of the sender's `rateLimiter` entry afterwards. -/
def isRateLimited (now : Int) : Option RateLimitEntry → Bool × Option RateLimitEntry
  | none => (false, none)
  | some rl =>
    let rl1 := if rl.resetTime < now then ⟨0, now + 60000⟩ else rl
    (decide (10 ≤ rl1.count), some rl1)

/-- `ChatbotService.updateRateLimit(userId)`. -/
def updateRateLimit (now : Int) : Option RateLimitEntry → Option RateLimitEntry
  | none => some ⟨1, now + 60000⟩
  | some rl => some ⟨rl.count + 1, rl.resetTime⟩

/-- The rate-limiting fragment of `_handleSingleMessage` for one event at
time `now`: if `isRateLimited` the event is silently dropped (`return`),
otherwise `updateRateLimit` runs and the event is processed.  The returned
`Bool` is `true` when the event was processed. -/
def rateStep (now : Int) (st : Option RateLimitEntry) : Bool × Option RateLimitEntry :=
  let v := isRateLimited now st
  if v.1 then (false, v.2) else (true, updateRateLimit now v.2)

/-- Number of events processed (not rate-dropped) when events arrive at the
given times, in order. -/
def processEvents (times : List Int) (st : Option RateLimitEntry) :
    Nat × Option RateLimitEntry :=
  match times with
  | [] => (0, st)
  | t :: ts =>
    let v := rateStep t st
    let r := processEvents ts v.2
    ((if v.1 then 1 else 0) + r.1, r.2)

theorem rateStep_live_limited (now : Int) (c : Nat) (R : Int) (h : ¬ R < now)
    (hc : 10 ≤ c) : rateStep now (some ⟨c, R⟩) = (false, some ⟨c, R⟩) := by
  simp [rateStep, isRateLimited, if_neg h, hc]

theorem rateStep_live_ok (now : Int) (c : Nat) (R : Int) (h : ¬ R < now)
    (hc : ¬ 10 ≤ c) : rateStep now (some ⟨c, R⟩) = (true, some ⟨c + 1, R⟩) := by
  simp [rateStep, isRateLimited, if_neg h, hc, updateRateLimit]

theorem processEvents_within_window (ts : List Int) :
    ∀ (c : Nat) (R : Int), (∀ t ∈ ts, t ≤ R) → c ≤ 10 →
      processEvents ts (some ⟨c, R⟩)
        = (min ts.length (10 - c), some ⟨min 10 (c + ts.length), R⟩) := by
  induction ts with
  | nil =>
    intro c R _ hc
    simp [processEvents]
    omega
  | cons t ts ih =>
    intro c R hw hc
    have ht : t ≤ R := hw t (by simp)
    have hnr : ¬ (R < t) := by omega
    by_cases h10 : 10 ≤ c
    · have hc10 : c = 10 := by omega
      subst hc10
      have hrec := ih 10 R (fun x hx => hw x (by simp [hx])) (by omega)
      simp only [processEvents, rateStep_live_limited t 10 R hnr (by omega), hrec]
      simp only [List.length_cons]
      refine congrArg₂ Prod.mk ?_ ?_
      · simp only [Bool.false_eq_true, if_false]
        omega
      · congr 2
        omega
    · have hrec := ih (c + 1) R (fun x hx => hw x (by simp [hx])) (by omega)
      simp only [processEvents, rateStep_live_ok t c R hnr h10, hrec]
      simp only [List.length_cons]
      refine congrArg₂ Prod.mk ?_ ?_
      · simp only [if_true]
        omega
      · congr 2
        omega

/-- C7: the rate limiter enforces a 60-second window of capacity 10: of 11
events for one sender arriving within 60 s of the first, exactly 10 are
processed and 1 is silently dropped, leaving the counter saturated at 10;
and on the first check strictly after `resetTime` the counter is lazily
reset, after which the event is processed again. -/
theorem c7_rate_limit_window (t0 : Int) (ts : List Int) (hlen : ts.length = 10)
    (hw : ∀ t ∈ ts, t ≤ t0 + 60000) :
    processEvents (t0 :: ts) none = (10, some ⟨10, t0 + 60000⟩) ∧
    (∀ (now : Int) (c : Nat) (R : Int), R < now →
      isRateLimited now (some ⟨c, R⟩) = (false, some ⟨0, now + 60000⟩) ∧
      rateStep now (some ⟨c, R⟩) = (true, some ⟨1, now + 60000⟩)) := by
  constructor
  · have h1 : rateStep t0 none = (true, some ⟨1, t0 + 60000⟩) := by
      simp [rateStep, isRateLimited, updateRateLimit]
    have h2 := processEvents_within_window ts 1 (t0 + 60000) hw (by omega)
    simp only [processEvents, h1, h2, hlen]
    norm_num
  · intro now c R hR
    have h1 : isRateLimited now (some ⟨c, R⟩) = (false, some ⟨0, now + 60000⟩) := by
      simp [isRateLimited, if_pos hR]
    refine ⟨h1, ?_⟩
    simp [rateStep, h1, updateRateLimit]

theorem c7_rate_limit_window_witness :
    processEvents (0 :: [1, 2, 3, 4, 5, 6, 7, 8, 9, 10]) none
      = (10, some ⟨10, 60000⟩) ∧
    rateStep 70000 (some ⟨10, 60000⟩) = (true, some ⟨1, 130000⟩) := by
  have h := c7_rate_limit_window 0 [1, 2, 3, 4, 5, 6, 7, 8, 9, 10] (by decide)
    (by decide)
  exact ⟨h.1, (h.2 70000 10 60000 (by decide)).2⟩

/-! ## Conversation store (JsonDatabase.addMessage / performCleanup)

Message timestamps are ISO strings in the code, compared through `Date`
parsing; parsing is order-preserving, so they are modelled as integer epoch
milliseconds. -/

structure StoredMessage where
  timestamp : Int
  role : String
  content : String
  deriving DecidableEq, Repr

structure Conversation where
  messages : List StoredMessage
  lastMessageTime : Int
  deriving DecidableEq, Repr

/-- The history-trimming part of `JsonDatabase.addMessage`: push the new
message, then if the length exceeds `config.bot.maxChatHistory`, splice off
the oldest excess messages. -/
def addMessage (maxChatHistory : Nat) (msgs : List StoredMessage)
    (m : StoredMessage) : List StoredMessage :=
  let msgs1 := msgs ++ [m]
  if maxChatHistory < msgs1.length then msgs1.drop (msgs1.length - maxChatHistory)
  else msgs1

theorem drop_append_drop {α : Type} (X Y : List α) (n m : Nat) (h : n ≤ X.length) :
    ((X.drop n) ++ Y).drop m = (X ++ Y).drop (n + m) := by
  rw [List.drop_append_eq_append_drop, List.drop_append_eq_append_drop, List.drop_drop]
  have h2 : m - (X.drop n).length = n + m - X.length := by
    simp only [List.length_drop]
    omega
  rw [h2]

theorem addMessage_foldl (k : Nat) (ms : List StoredMessage) :
    ∀ acc : List StoredMessage, acc.length ≤ k →
      List.foldl (addMessage k) acc ms
        = (acc ++ ms).drop (acc.length + ms.length - k) := by
  induction ms with
  | nil =>
    intro acc hacc
    simp only [List.foldl_nil, List.append_nil, List.length_nil, Nat.add_zero]
    rw [show acc.length - k = 0 by omega, List.drop_zero]
  | cons m ms ih =>
    intro acc hacc
    simp only [List.foldl_cons]
    by_cases hlt : acc.length < k
    · have hstep : addMessage k acc m = acc ++ [m] := by
        simp only [addMessage]
        rw [if_neg (by simp only [List.length_append, List.length_cons, List.length_nil]; omega)]
      rw [hstep, ih (acc ++ [m]) (by simp only [List.length_append, List.length_cons, List.length_nil]; omega)]
      rw [List.append_assoc, List.singleton_append]
      congr 1
      simp only [List.length_append, List.length_cons, List.length_nil]
      omega
    · have heq : acc.length = k := by omega
      have hstep : addMessage k acc m = (acc ++ [m]).drop 1 := by
        simp only [addMessage]
        rw [if_pos (by simp only [List.length_append, List.length_cons, List.length_nil]; omega)]
        congr 1
        simp only [List.length_append, List.length_cons, List.length_nil]
        omega
      rw [hstep, ih ((acc ++ [m]).drop 1)
          (by simp only [List.length_drop, List.length_append, List.length_cons, List.length_nil]; omega),
        drop_append_drop _ _ _ _
          (by simp only [List.length_append, List.length_cons, List.length_nil]; omega),
        List.append_assoc, List.singleton_append]
      congr 1
      simp only [List.length_drop, List.length_append, List.length_cons, List.length_nil]
      omega

/-- C8: appending `maxHistory + 5` turns one at a time to an initially empty
conversation leaves exactly `maxHistory` stored turns: the 5 oldest are
evicted (FIFO) and the insertion order of the remaining turns is
preserved (the result is exactly the suffix `ms.drop 5`). -/
theorem c8_history_trimming (k : Nat) (ms : List StoredMessage)
    (hlen : ms.length = k + 5) :
    List.foldl (addMessage k) [] ms = ms.drop 5 ∧
    (List.foldl (addMessage k) [] ms).length = k := by
  have h := addMessage_foldl k ms [] (by simp)
  simp only [List.nil_append, List.length_nil, Nat.zero_add] at h
  rw [hlen] at h
  have h5 : k + 5 - k = 5 := by omega
  rw [h5] at h
  refine ⟨h, ?_⟩
  rw [h, List.length_drop, hlen]
  omega

theorem c8_history_trimming_witness :
    List.foldl (addMessage 2)
      [] [⟨1, "user", "a"⟩, ⟨2, "assistant", "b"⟩, ⟨3, "user", "c"⟩,
          ⟨4, "assistant", "d"⟩, ⟨5, "user", "e"⟩, ⟨6, "assistant", "f"⟩,
          ⟨7, "user", "g"⟩]
      = [⟨6, "assistant", "f"⟩, ⟨7, "user", "g"⟩] := by
  have h := c8_history_trimming 2
    [⟨1, "user", "a"⟩, ⟨2, "assistant", "b"⟩, ⟨3, "user", "c"⟩,
     ⟨4, "assistant", "d"⟩, ⟨5, "user", "e"⟩, ⟨6, "assistant", "f"⟩,
     ⟨7, "user", "g"⟩] (by decide)
  rw [h.1]
  rfl

/-- The per-conversation body of `JsonDatabase.performCleanup`'s loop:
delete the conversation when its last-message time is strictly older than
the cutoff AND it has fewer than 10 messages; otherwise keep it, filtering
out every message whose timestamp is not strictly newer than the cutoff. -/
def cleanupConv (cutoff : Int) (c : Conversation) : Option Conversation :=
  if c.lastMessageTime < cutoff ∧ c.messages.length < 10 then none
  else some ⟨c.messages.filter (fun m => cutoff < m.timestamp), c.lastMessageTime⟩

/-- `JsonDatabase.performCleanup` over the whole map (entries in iteration
order; the cutoff is now minus 30 days). -/
def performCleanup (cutoff : Int) (db : List (String × Conversation)) :
    List (String × Conversation) :=
  db.filterMap (fun e => (cleanupConv cutoff e.2).map (fun c => (e.1, c)))

def msPerDay : Int := 86400000

/-- A conversation whose `n` messages all carry timestamp `ts`. -/
def mkConv (n : Nat) (ts : Int) : Conversation :=
  ⟨List.replicate n ⟨ts, "user", "m"⟩, ts⟩

/-- C9: cleanup deletes a conversation if and only if its last-turn time is
strictly older than the cutoff AND its turn count is below 10; concretely,
with the cutoff 30 days before "now", a conversation last touched 31 days
ago with 3 turns is deleted while one last touched 31 days ago with 15 turns
is retained, and `performCleanup` keeps exactly the retained entry. -/
theorem c9_retention_policy :
    (∀ (cutoff : Int) (c : Conversation),
      cleanupConv cutoff c = none ↔
        (c.lastMessageTime < cutoff ∧ c.messages.length < 10)) ∧
    cleanupConv (100 * msPerDay - 30 * msPerDay) (mkConv 3 (100 * msPerDay - 31 * msPerDay))
      = none ∧
    (cleanupConv (100 * msPerDay - 30 * msPerDay)
      (mkConv 15 (100 * msPerDay - 31 * msPerDay))).isSome = true ∧
    (performCleanup (100 * msPerDay - 30 * msPerDay)
      [("old", mkConv 3 (100 * msPerDay - 31 * msPerDay)),
       ("big", mkConv 15 (100 * msPerDay - 31 * msPerDay))]).map Prod.fst
      = ["big"] := by
  refine ⟨?_, by decide, by decide, by decide⟩
  intro cutoff c
  simp only [cleanupConv]
  split
  · simpa
  · simp_all

/-- C10: for every conversation that cleanup retains, exactly the messages
whose timestamps are strictly newer than the cutoff are kept (the last-turn
metadata is untouched); in particular a retained conversation all of whose
messages are older than or equal to the cutoff ends up with an empty message
list. -/
theorem c10_retained_messages_filtered (cutoff : Int) (c c' : Conversation)
    (hf : cleanupConv cutoff c = some c') :
    c'.messages = c.messages.filter (fun m => cutoff < m.timestamp) ∧
    c'.lastMessageTime = c.lastMessageTime ∧
    ((∀ m ∈ c.messages, m.timestamp ≤ cutoff) → c'.messages = []) := by
  simp only [cleanupConv] at hf
  split at hf
  · exact absurd hf (by simp)
  · simp only [Option.some.injEq] at hf
    subst hf
    refine ⟨rfl, rfl, ?_⟩
    intro hold
    simp only [List.filter_eq_nil_iff]
    intro m hm
    have := hold m hm
    simp
    omega

theorem c10_retained_messages_filtered_witness :
    cleanupConv 0 ⟨[⟨-5, "user", "x"⟩], 10⟩ = some ⟨[], 10⟩ ∧
    ([] : List StoredMessage)
      = ([⟨-5, "user", "x"⟩] : List StoredMessage).filter (fun m => 0 < m.timestamp) := by
  have h := c10_retained_messages_filtered 0 ⟨[⟨-5, "user", "x"⟩], 10⟩ ⟨[], 10⟩ (by decide)
  exact ⟨by decide, h.1⟩

/-! ## GeminiClient model (src/gemini/geminiClient.js)

The per-credential state consists of the three Maps `requestCounts`,
`errorCounts` and `lastRequestTimes`, all read with a `|| 0` default, so they
are modelled as total functions defaulting to 0.  Scores are rationals
(JS numbers; every quantity involved is an exact ratio of integers here).
Times are `Date.now()` milliseconds. -/

structure GemState where
  numClients : Nat
  requestCounts : Nat → Nat
  errorCounts : Nat → Nat
  lastRequestTimes : Nat → Int

/-- `errorRate = requestCount > 0 ? errorCount / requestCount : 0`. -/
def errorRate (st : GemState) (i : Nat) : ℚ :=
  if 0 < st.requestCounts i then (st.errorCounts i : ℚ) / (st.requestCounts i : ℚ)
  else 0

/-- `score = (1 - errorRate) * 100 + Math.min(timeSinceLastRequest / 1000, 60)`. -/
def clientScore (now : Int) (st : GemState) (i : Nat) : ℚ :=
  (1 - errorRate st i) * 100 + min (((now - st.lastRequestTimes i : Int) : ℚ) / 1000) 60

/-- `GeminiClient.getBestClient()`: scans the clients in registration order
starting from `bestClient = clients[0]`, `bestScore = -1`, replacing the best
whenever `score > bestScore`; returns the index of the chosen slot. -/
def getBestClient (now : Int) (st : GemState) : Nat :=
  ((List.range st.numClients).foldl
    (fun best i =>
      if best.2 < clientScore now st i then (i, clientScore now st i) else best)
    (0, (-1 : ℚ))).1

def updateRequestCount (i : Nat) (st : GemState) : GemState :=
  { st with requestCounts := Function.update st.requestCounts i (st.requestCounts i + 1) }

def updateErrorCount (i : Nat) (st : GemState) : GemState :=
  { st with errorCounts := Function.update st.errorCounts i (st.errorCounts i + 1) }

def updateLastRequestTime (i : Nat) (now : Int) (st : GemState) : GemState :=
  { st with lastRequestTimes := Function.update st.lastRequestTimes i now }

/-- `needle` occurs as a contiguous substring of the haystack
(JS `String.prototype.includes`). -/
def infixOfChars (needle : List Char) : List Char → Bool
  | [] => needle.isEmpty
  | h :: t => needle.isPrefixOf (h :: t) || infixOfChars needle t

def retryablePatterns : List String :=
  ["Request timeout", "RATE_LIMIT_EXCEEDED", "INTERNAL", "UNAVAILABLE",
   "DEADLINE_EXCEEDED", "Internal error", "Service temporarily unavailable"]

/-- `GeminiClient.isRetryableError(error)`: the error message contains one of
the retryable patterns. -/
def isRetryableError (msg : String) : Bool :=
  retryablePatterns.any (fun p => infixOfChars p.toList msg.toList)

/-- What the outside world does with one attempt of the retry loop:
the raced request either resolves with a response text or rejects
(timeout, API error, ...).  The three timestamps are the `Date.now()` values
observed at the `getBestClient()` call in the `try`, at the `getBestClient()`
call in the `catch`, and at `updateLastRequestTime` on success. -/
inductive AttemptResult where
  | response (text : String) : AttemptResult
  | error (msg : String) : AttemptResult
  deriving DecidableEq, Repr

structure Attempt where
  result : AttemptResult
  selNow : Int
  failNow : Int
  endNow : Int
  deriving DecidableEq, Repr

/-- `!responseText || responseText.trim().length === 0`. -/
def isBlank (t : String) : Bool := t.toList.all Char.isWhitespace

/-- The error this attempt throws, if any: a blank response throws
`Empty response from Gemini`, a rejected request throws its own error. -/
def attemptErrMsg (a : Attempt) : Option String :=
  match a.result with
  | AttemptResult.response t =>
    if isBlank t then some "Empty response from Gemini" else none
  | AttemptResult.error m => some m

def responseText (a : Attempt) : String :=
  match a.result with
  | AttemptResult.response t => t
  | AttemptResult.error _ => ""

def attemptFails (a : Attempt) : Bool := (attemptErrMsg a).isSome

/-- One failed attempt's effect on the credential state: the issuing slot
(best at `selNow`) gets its request count bumped, then the slot that is best
at `failNow` — re-computed by the `catch` block — gets its error count
bumped. -/
def failStep (a : Attempt) (st : GemState) : GemState :=
  let st1 := updateRequestCount (getBestClient a.selNow st) st
  updateErrorCount (getBestClient a.failNow st1) st1

/-- Observable outcome of `generateContent`: the returned text or the thrown
exhaustion error, the final credential state, the backoff delays slept (in
order), and how many attempts were issued. -/
structure GenResult where
  result : Except String String
  finalState : GemState
  delays : List Nat
  attemptsUsed : Nat

/-- The `for (attempt = 0; attempt <= retries; attempt++)` loop of
`GeminiClient.generateContent`, from attempt `k` on, with `fuel` remaining
iterations and the backoff delays slept so far (most recent first) in `acc`.
On success returns the text immediately; on failure increments the counters
(`failStep`), then — only when further attempts remain — sleeps
`retryDelay * 2 ** attempt` and retries; the retryable/fatal distinction is
only consulted when `attempt === retries`, where the loop is about to end
anyway. -/
def genLoop (rd retries : Nat) (oracle : Nat → Attempt) :
    Nat → Nat → GemState → List Nat → GenResult
  | 0, k, st, acc =>
    ⟨Except.error "Gemini request failed: Unknown error", st, acc.reverse, k⟩
  | fuel + 1, k, st, acc =>
    let a := oracle k
    let i := getBestClient a.selNow st
    let st1 := updateRequestCount i st
    match attemptErrMsg a with
    | none =>
      ⟨Except.ok (responseText a), updateLastRequestTime i a.endNow st1,
        acc.reverse, k + 1⟩
    | some err =>
      let st2 := updateErrorCount (getBestClient a.failNow st1) st1
      if k < retries then
        genLoop rd retries oracle fuel (k + 1) st2 (rd * 2 ^ k :: acc)
      else
        ⟨Except.error ("Gemini request failed: " ++ err), st2, acc.reverse, k + 1⟩

/-- `GeminiClient.generateContent(...)` with resolved retry budget
`retries` and base delay `rd` (`config.gemini.retryDelay`). -/
def generateContent (rd retries : Nat) (oracle : Nat → Attempt) (st : GemState) :
    GenResult :=
  genLoop rd retries oracle (retries + 1) 0 st []

/-- Credential state after the first `m` attempts all failed. -/
def stAfterFails (o : Nat → Attempt) (m : Nat) (st : GemState) : GemState :=
  (List.range m).foldl (fun s j => failStep (o j) s) st


theorem genLoop_attempts_le (rd r : Nat) (o : Nat → Attempt) :
    ∀ (fuel k : Nat) (st : GemState) (acc : List Nat),
      (genLoop rd r o fuel k st acc).attemptsUsed ≤ k + fuel := by
  intro fuel
  induction fuel with
  | zero => intro k st acc; simp [genLoop]
  | succ fuel ih =>
    intro k st acc
    cases h : attemptErrMsg (o k) with
    | none =>
      simp [genLoop, h]
    | some err =>
      by_cases hk : k < r
      · simp only [genLoop, h, if_pos hk]
        have := ih (k + 1) (updateErrorCount
          (getBestClient (o k).failNow (updateRequestCount (getBestClient (o k).selNow st) st))
          (updateRequestCount (getBestClient (o k).selNow st) st)) (rd * 2 ^ k :: acc)
        omega
      · simp [genLoop, h, hk]

theorem genLoop_attempts_ge (rd r : Nat) (o : Nat → Attempt) :
    ∀ (fuel k : Nat) (st : GemState) (acc : List Nat),
      k ≤ (genLoop rd r o fuel k st acc).attemptsUsed := by
  intro fuel
  induction fuel with
  | zero => intro k st acc; simp [genLoop]
  | succ fuel ih =>
    intro k st acc
    cases h : attemptErrMsg (o k) with
    | none =>
      simp [genLoop, h]
    | some err =>
      by_cases hk : k < r
      · simp only [genLoop, h, if_pos hk]
        have := ih (k + 1) (updateErrorCount
          (getBestClient (o k).failNow (updateRequestCount (getBestClient (o k).selNow st) st))
          (updateRequestCount (getBestClient (o k).selNow st) st)) (rd * 2 ^ k :: acc)
        omega
      · simp [genLoop, h, hk]

theorem genLoop_attempts_ge_succ (rd r : Nat) (o : Nat → Attempt)
    (fuel k : Nat) (st : GemState) (acc : List Nat) (hf : 0 < fuel) :
    k + 1 ≤ (genLoop rd r o fuel k st acc).attemptsUsed := by
  cases fuel with
  | zero => omega
  | succ fuel =>
    cases h : attemptErrMsg (o k) with
    | none => simp [genLoop, h]
    | some err =>
      by_cases hk : k < r
      · simp only [genLoop, h, if_pos hk]
        exact genLoop_attempts_ge rd r o fuel (k + 1) _ _
      · simp [genLoop, h, hk]

theorem genLoop_delays_shape (rd r : Nat) (o : Nat → Attempt) :
    ∀ (fuel k : Nat) (st : GemState) (acc : List Nat),
      ∃ m, (genLoop rd r o fuel k st acc).delays
        = acc.reverse ++ (List.range' k m).map (fun j => rd * 2 ^ j) := by
  intro fuel
  induction fuel with
  | zero => intro k st acc; exact ⟨0, by simp [genLoop]⟩
  | succ fuel ih =>
    intro k st acc
    cases h : attemptErrMsg (o k) with
    | none => exact ⟨0, by simp [genLoop, h]⟩
    | some err =>
      by_cases hk : k < r
      · simp only [genLoop, h, if_pos hk]
        obtain ⟨m, hm⟩ := ih (k + 1) (updateErrorCount
          (getBestClient (o k).failNow (updateRequestCount (getBestClient (o k).selNow st) st))
          (updateRequestCount (getBestClient (o k).selNow st) st)) (rd * 2 ^ k :: acc)
        refine ⟨m + 1, ?_⟩
        rw [hm, List.range'_succ k m 1, List.map_cons]
        simp
      · exact ⟨0, by simp [genLoop, h, hk]⟩

theorem genContent_reach (rd r : Nat) (o : Nat → Attempt) (st : GemState) :
    ∀ m, m ≤ r → (∀ j, j < m → attemptFails (o j) = true) →
      generateContent rd r o st
        = genLoop rd r o (r + 1 - m) m (stAfterFails o m st)
            (((List.range m).map (fun j => rd * 2 ^ j)).reverse) := by
  intro m
  induction m with
  | zero =>
    intro _ _
    simp [generateContent, stAfterFails]
  | succ m ih =>
    intro hm hfail
    have hrec := ih (by omega) (fun j hj => hfail j (by omega))
    rw [hrec]
    have hfuel : r + 1 - m = (r - m) + 1 := by omega
    rw [hfuel]
    obtain ⟨err, herr⟩ : ∃ e, attemptErrMsg (o m) = some e := by
      have := hfail m (by omega)
      simp only [attemptFails, Option.isSome_iff_exists] at this
      exact this
    simp only [genLoop, herr, if_pos (show m < r by omega)]
    have hfuel2 : r - m = r + 1 - (m + 1) := by omega
    rw [hfuel2]
    congr 1
    · rw [stAfterFails, stAfterFails, List.range_succ, List.foldl_append]
      simp [failStep]
    · rw [List.range_succ, List.map_append, List.reverse_append]
      simp

/-- C3: at most `retries + 1` attempts; a successful non-blank response on
attempt `k` (0-based), after failing attempts before it, is returned
immediately with `k + 1` attempts used and delays
`retryDelay * 2 ^ 0, ..., retryDelay * 2 ^ (k-1)`; an empty or
whitespace-only response counts as a failed attempt (`attemptErrMsg` turns it
into `Empty response from Gemini`); with a positive base delay the
inter-attempt delays are strictly increasing. -/
theorem c3_retry_loop (rd r : Nat) (o : Nat → Attempt) (st : GemState) :
    (generateContent rd r o st).attemptsUsed ≤ r + 1 ∧
    (∀ k, k ≤ r → (∀ j, j < k → attemptFails (o j) = true) →
      attemptErrMsg (o k) = none →
      (generateContent rd r o st).result = Except.ok (responseText (o k)) ∧
      (generateContent rd r o st).attemptsUsed = k + 1 ∧
      (generateContent rd r o st).delays = (List.range k).map (fun j => rd * 2 ^ j)) ∧
    (1 ≤ rd → ((generateContent rd r o st).delays).Pairwise (· < ·)) := by
  refine ⟨?_, ?_, ?_⟩
  · have h := genLoop_attempts_le rd r o (r + 1) 0 st []
    simpa [generateContent] using h
  · intro k hk hfail hok
    rw [genContent_reach rd r o st k hk hfail]
    rw [show r + 1 - k = (r - k) + 1 from by omega]
    simp only [genLoop, hok]
    exact ⟨by simp, by simp, by simp⟩
  · intro hrd
    obtain ⟨m, hm⟩ := genLoop_delays_shape rd r o (r + 1) 0 st []
    rw [generateContent, hm]
    simp only [List.reverse_nil, List.nil_append]
    refine List.Pairwise.map _ ?_ (List.pairwise_lt_range' 0 m)
    intro a b hab
    have hpow : 2 ^ a < 2 ^ b := Nat.pow_lt_pow_right (by norm_num) hab
    exact mul_lt_mul_of_pos_left hpow (by omega)

def oBlankThenFailThenOk : Nat → Attempt := fun k =>
  if k = 0 then ⟨AttemptResult.response "   ", 0, 0, 0⟩
  else if k = 1 then ⟨AttemptResult.error "Request timeout", 0, 0, 0⟩
  else ⟨AttemptResult.response "hello!", 0, 0, 0⟩

def stSingle : GemState := ⟨1, fun _ => 0, fun _ => 0, fun _ => 0⟩

theorem c3_retry_loop_witness :
    (generateContent 1000 3 oBlankThenFailThenOk stSingle).result = Except.ok "hello!" ∧
    (generateContent 1000 3 oBlankThenFailThenOk stSingle).attemptsUsed = 3 ∧
    (generateContent 1000 3 oBlankThenFailThenOk stSingle).delays = [1000, 2000] ∧
    ((generateContent 1000 3 oBlankThenFailThenOk stSingle).delays).Pairwise (· < ·) := by
  have h := c3_retry_loop 1000 3 oBlankThenFailThenOk stSingle
  have h2 := h.2.1 2 (by omega)
    (by intro j hj; interval_cases j <;> decide)
    (by decide)
  refine ⟨?_, h2.2.1, ?_, h.2.2 (by omega)⟩
  · rw [h2.1]
    rfl
  · rw [h2.2.2]
    decide

def oFatalThenOk : Nat → Attempt := fun k =>
  if k = 0 then
    ⟨AttemptResult.error "API key not valid. Please pass a valid API key.", 0, 0, 0⟩
  else ⟨AttemptResult.response "hello", 0, 0, 0⟩

/-- C4 counterexample: with budget `maxRetries = 1`, a non-retryable
(invalid API key) failure on attempt 0 does NOT stop the loop: the code
waits the full backoff delay and issues attempt 1, whose response is
returned.  The break `!isRetryableError && attempt === retries` only fires
on the final attempt. -/
theorem c4_fatal_still_retried_counterexample :
    isRetryableError "API key not valid. Please pass a valid API key." = false ∧
    (generateContent 1000 1 oFatalThenOk stSingle).attemptsUsed = 2 ∧
    (generateContent 1000 1 oFatalThenOk stSingle).delays = [1000] ∧
    (generateContent 1000 1 oFatalThenOk stSingle).result = Except.ok "hello" := by
  refine ⟨by decide, ?_⟩
  norm_num [generateContent, genLoop, getBestClient, stSingle, oFatalThenOk, clientScore,
    errorRate, min_def, show List.range 1 = [0] from rfl, List.foldl, attemptErrMsg,
    responseText, updateRequestCount, updateErrorCount, Function.update,
    show isBlank "hello" = false from by decide]

/-- C4 amended: the retryable/fatal classification only matters on the final
attempt, where the loop is about to end anyway: a failing attempt `k` that is
not the final one — fatal or not — is followed by a backoff sleep of
`retryDelay * 2 ^ k` and a further attempt, while a failure on the final
attempt (retryable or not) ends the loop with no further delay and throws
the exhaustion error wrapping the last error. -/
theorem c4_fatal_error_handling_amended (rd r : Nat) (o : Nat → Attempt) (st : GemState) :
    (∀ k, k < r → (∀ j, j ≤ k → attemptFails (o j) = true) →
      k + 2 ≤ (generateContent rd r o st).attemptsUsed ∧
      ((generateContent rd r o st).delays).take (k + 1)
        = (List.range (k + 1)).map (fun j => rd * 2 ^ j)) ∧
    ((∀ j, j ≤ r → attemptFails (o j) = true) →
      ∀ err, attemptErrMsg (o r) = some err →
      (generateContent rd r o st).attemptsUsed = r + 1 ∧
      (generateContent rd r o st).delays = (List.range r).map (fun j => rd * 2 ^ j) ∧
      (generateContent rd r o st).result
        = Except.error ("Gemini request failed: " ++ err)) := by
  constructor
  · intro k hk hfail
    have hreach := genContent_reach rd r o st (k + 1) (by omega)
      (fun j hj => hfail j (by omega))
    rw [hreach]
    constructor
    · exact genLoop_attempts_ge_succ rd r o (r + 1 - (k + 1)) (k + 1) _ _ (by omega)
    · obtain ⟨m, hm⟩ := genLoop_delays_shape rd r o (r + 1 - (k + 1)) (k + 1) _ _
      rw [hm, List.reverse_reverse, List.take_append_eq_append_take]
      have h1 : List.take (k + 1) ((List.range (k + 1)).map (fun j => rd * 2 ^ j))
          = (List.range (k + 1)).map (fun j => rd * 2 ^ j) := by
        apply List.take_of_length_le
        simp
      have h2 : k + 1 - ((List.range (k + 1)).map (fun j => rd * 2 ^ j)).length = 0 := by
        simp
      rw [h1, h2, List.take_zero, List.append_nil]
  · intro hfail err herr
    have hreach := genContent_reach rd r o st r (by omega)
      (fun j hj => hfail j (by omega))
    rw [hreach]
    rw [show r + 1 - r = 0 + 1 from by omega]
    simp only [genLoop, herr, Nat.lt_irrefl, if_false]
    exact ⟨by simp, by simp, by simp⟩

theorem c4_fatal_error_handling_amended_witness :
    2 + 2 ≤ (generateContent 7 5 (fun _ => ⟨AttemptResult.error "boom", 0, 0, 0⟩)
      stSingle).attemptsUsed ∧
    (generateContent 7 5 (fun _ => ⟨AttemptResult.error "boom", 0, 0, 0⟩)
      stSingle).attemptsUsed = 6 ∧
    (generateContent 7 5 (fun _ => ⟨AttemptResult.error "boom", 0, 0, 0⟩)
      stSingle).result = Except.error "Gemini request failed: boom" := by
  have h := c4_fatal_error_handling_amended 7 5
    (fun _ => ⟨AttemptResult.error "boom", 0, 0, 0⟩) stSingle
  have ha := h.1 2 (by omega) (fun j _ => by decide)
  have hb := h.2 (fun j _ => by decide) "boom" (by decide)
  exact ⟨ha.1, hb.1, hb.2.2⟩

def stTwoSlots : GemState := ⟨2, fun _ => 0, fun _ => 0, fun i => if i = 0 then 945000 else 0⟩

def oTimeoutAt : Nat → Attempt := fun _ =>
  ⟨AttemptResult.error "Request timeout", 1000000, 1010000, 1010000⟩

/-- C5: the claim (and spec) say the failing attempt increments the error
count of exactly the slot that issued the request; the code instead re-runs
`getBestClient()` inside the `catch` (the `client` variable of the `try` is
out of scope there) and increments whatever slot is best at that moment.
Concretely: slot 0 was last used 55 s before selection, slot 1 never; at
selection slot 1 wins (160 vs 155) and issues the request
(`requestCounts = [0, 1]`), but when the attempt times out 10 s later both
slots score 160, the scan keeps the earlier slot 0, and slot 0's error count
is incremented: `errorCounts = [1, 0]`. -/
theorem c5_error_count_misattribution :
    getBestClient 1000000 stTwoSlots = 1 ∧
    (generateContent 1000 0 oTimeoutAt stTwoSlots).finalState.requestCounts 0 = 0 ∧
    (generateContent 1000 0 oTimeoutAt stTwoSlots).finalState.requestCounts 1 = 1 ∧
    (generateContent 1000 0 oTimeoutAt stTwoSlots).finalState.errorCounts 0 = 1 ∧
    (generateContent 1000 0 oTimeoutAt stTwoSlots).finalState.errorCounts 1 = 0 := by
  norm_num [generateContent, genLoop, getBestClient, stTwoSlots, oTimeoutAt, clientScore,
    errorRate, min_def, show List.range 2 = [0, 1] from rfl, List.foldl, attemptErrMsg,
    updateRequestCount, updateErrorCount, Function.update]

/-- Modelled from the claim's wording: `errorRate = errorCount / max(requestCount, 1)`. -/
def specErrorRate (st : GemState) (i : Nat) : ℚ :=
  (st.errorCounts i : ℚ) / ((max (st.requestCounts i) 1 : Nat) : ℚ)

/-- Modelled from the claim's wording: the score with
`errorRate = errorCount / max(requestCount, 1)`. -/
def specClientScore (now : Int) (st : GemState) (i : Nat) : ℚ :=
  (1 - specErrorRate st i) * 100
    + min (((now - st.lastRequestTimes i : Int) : ℚ) / 1000) 60

def stZeroReqOneErr : GemState :=
  ⟨2, fun i => if i = 0 then 0 else 1, fun i => if i = 0 then 1 else 0, fun _ => 0⟩

/-- C6 counterexample: on the reachable state where slot 0 has
`requestCount = 0` but `errorCount = 1` (an error was attributed to a
never-used slot — see C5) and slot 1 has one clean request, the claim's
formula `errorCount / max(requestCount, 1)` scores slot 0 at 60 and slot 1 at
160, so the claim says slot 1 must be returned; the code treats
`requestCount = 0` as `errorRate = 0` regardless of `errorCount`, scores both
slots 160, and the `score > bestScore` scan keeps slot 0. -/
theorem c6_selection_formula_counterexample :
    getBestClient 10000000 stZeroReqOneErr = 0 ∧
    specClientScore 10000000 stZeroReqOneErr 0
      < specClientScore 10000000 stZeroReqOneErr 1 := by
  norm_num [getBestClient, stZeroReqOneErr, clientScore, errorRate, specClientScore,
    specErrorRate, min_def, show List.range 2 = [0, 1] from rfl, List.foldl]

/-- The `bestClient/bestScore` scan of `getBestClient`, over an arbitrary
score function. -/
def bestFold (f : Nat → ℚ) (n : Nat) : Nat × ℚ :=
  (List.range n).foldl (fun b i => if b.2 < f i then (i, f i) else b) (0, (-1 : ℚ))

theorem getBestClient_eq_bestFold (now : Int) (st : GemState) :
    getBestClient now st = (bestFold (clientScore now st) st.numClients).1 := rfl

theorem bestFold_spec (f : Nat → ℚ) :
    ∀ n, 0 < n → (∀ i, i < n → -1 < f i) →
      (bestFold f n).1 < n ∧ (bestFold f n).2 = f (bestFold f n).1 ∧
      (∀ i, i < n → f i ≤ (bestFold f n).2) ∧
      (∀ i, i < (bestFold f n).1 → f i < (bestFold f n).2) := by
  intro n
  induction n with
  | zero => intro h; exact absurd h (by omega)
  | succ n ih =>
    intro _ hgt
    have hstep : bestFold f (n + 1)
        = (if (bestFold f n).2 < f n then (n, f n) else bestFold f n) := by
      simp only [bestFold, List.range_succ, List.foldl_append, List.foldl_cons,
        List.foldl_nil]
    by_cases hn : n = 0
    · subst hn
      have h0 : -1 < f 0 := hgt 0 (by omega)
      have : bestFold f 1 = (0, f 0) := by
        simp only [bestFold, List.range_succ, List.range_zero, List.nil_append,
          List.foldl_cons, List.foldl_nil]
        rw [if_pos h0]
      rw [this]
      refine ⟨by omega, rfl, ?_, ?_⟩
      · intro i hi
        have hi0 : i = 0 := by omega
        subst hi0
        exact le_refl _
      · intro i hi
        exact absurd hi (by omega)
    · have hn' : 0 < n := by omega
      obtain ⟨hlt, hsnd, hmax, hfirst⟩ := ih hn' (fun i hi => hgt i (by omega))
      rw [hstep]
      by_cases hc : (bestFold f n).2 < f n
      · rw [if_pos hc]
        refine ⟨by omega, rfl, ?_, ?_⟩
        · intro i hi
          rcases Nat.lt_succ_iff_lt_or_eq.mp hi with h | h
          · exact le_of_lt (lt_of_le_of_lt (hmax i h) hc)
          · subst h
            exact le_refl _
        · intro i hi
          exact lt_of_le_of_lt (hmax i hi) hc
      · rw [if_neg hc]
        push_neg at hc
        refine ⟨by omega, hsnd, ?_, hfirst⟩
        intro i hi
        rcases Nat.lt_succ_iff_lt_or_eq.mp hi with h | h
        · exact hmax i h
        · subst h
          rw [hsnd] at hc ⊢
          exact hc

def stHalfVsZero : GemState :=
  ⟨2, fun _ => 2, fun i => if i = 0 then 1 else 0, fun _ => 0⟩

theorem errorRate_eq_spec (st : GemState) (i : Nat)
    (hec : st.errorCounts i ≤ st.requestCounts i) :
    errorRate st i = specErrorRate st i := by
  unfold errorRate specErrorRate
  rcases Nat.eq_zero_or_pos (st.requestCounts i) with h | h
  · have hec0 : st.errorCounts i = 0 := by omega
    rw [h, hec0]
    norm_num
  · rw [if_pos h, Nat.max_eq_left h]

theorem clientScore_gt_neg_one (now : Int) (st : GemState) (i : Nat)
    (hec : st.errorCounts i ≤ st.requestCounts i)
    (hlrt : st.lastRequestTimes i ≤ now) :
    -1 < clientScore now st i := by
  have her0 : 0 ≤ errorRate st i := by
    unfold errorRate
    split
    · positivity
    · exact le_refl 0
  have her1 : errorRate st i ≤ 1 := by
    unfold errorRate
    split
    · rename_i h
      rw [div_le_one (by exact_mod_cast h)]
      exact_mod_cast hec
    · norm_num
  have hterm2 : (0 : ℚ) ≤ min (((now - st.lastRequestTimes i : Int) : ℚ) / 1000) 60 := by
    apply le_min
    · apply div_nonneg
      · exact_mod_cast sub_nonneg.mpr hlrt
      · norm_num
    · norm_num
  have h1 : (0 : ℚ) ≤ (1 - errorRate st i) * 100 :=
    mul_nonneg (by linarith) (by norm_num)
  unfold clientScore
  linarith

/-- C6 amended: provided every slot's error count is at most its request
count (true whenever errors are attributed to the slot that issued the
request) and no slot's last-use time is in the future, `getBestClient`
computes for every slot the score
`(1 - errorRate) * 100 + min(secondsSinceLastUse, 60)` with
`errorRate = errorCount / max(requestCount, 1)` (for a slot with
`requestCount = 0` the code uses `errorRate = 0`, which then coincides), and
returns the slot with the maximum score, breaking ties by registration
order; in particular, of two credentials with equal idle time and error
rates 0.5 versus 0, the zero-error credential is selected. -/
theorem c6_selection_amended (now : Int) (st : GemState)
    (hn : 0 < st.numClients)
    (hec : ∀ i, i < st.numClients → st.errorCounts i ≤ st.requestCounts i)
    (hlrt : ∀ i, i < st.numClients → st.lastRequestTimes i ≤ now) :
    (∀ i, i < st.numClients → clientScore now st i = specClientScore now st i) ∧
    getBestClient now st < st.numClients ∧
    (∀ i, i < st.numClients →
      clientScore now st i ≤ clientScore now st (getBestClient now st)) ∧
    (∀ i, i < getBestClient now st →
      clientScore now st i < clientScore now st (getBestClient now st)) ∧
    getBestClient 10000000 stHalfVsZero = 1 := by
  have hpos : ∀ i, i < st.numClients → -1 < clientScore now st i :=
    fun i hi => clientScore_gt_neg_one now st i (hec i hi) (hlrt i hi)
  obtain ⟨h1, h2, h3, h4⟩ := bestFold_spec (clientScore now st) st.numClients hn hpos
  rw [getBestClient_eq_bestFold]
  refine ⟨fun i hi => by rw [clientScore, specClientScore,
      errorRate_eq_spec st i (hec i hi)], h1, ?_, ?_, ?_⟩
  · intro i hi
    rw [← h2]
    exact h3 i hi
  · intro i hi
    rw [← h2]
    exact h4 i hi
  · norm_num [getBestClient, stHalfVsZero, clientScore, errorRate, min_def,
      show List.range 2 = [0, 1] from rfl, List.foldl]

theorem c6_selection_amended_witness :
    getBestClient 10000000 stHalfVsZero < 2 ∧
    getBestClient 10000000 stHalfVsZero = 1 := by
  have h := c6_selection_amended 10000000 stHalfVsZero (by norm_num [stHalfVsZero])
    (by intro i hi; simp only [stHalfVsZero]; split <;> omega)
    (by intro i hi; simp only [stHalfVsZero]; omega)
  exact ⟨h.2.1, h.2.2.2.2⟩

end WhatsAppFlow
